import Mathlib

/-!
A shallow embedding of `jamfsync.py` (class `JCDSSync`): a reconciler that
mirrors a remote package catalog into a local directory.  Pure data is
translated directly; the effects (HTTP, filesystem, clock) are made explicit:

* the local directory is an association list from file names to byte contents;
* the bytes obtained by a successful download of `fileName` are an oracle
  `serve : String → List Nat`;
* `hashlib.md5` is an external library; its streaming object is modelled by
  the byte stream absorbed so far, and its `hexdigest` by an arbitrary
  digest function `digest : List Nat → String` (the code only ever compares
  digests for equality, so nothing below depends on the internals of MD5);
* wall-clock instants are natural numbers passed explicitly.
-/

namespace JCDSSync

/-- A remote package record as returned by
`GET /api/v1/packages` (`results` entries): the fields the program reads. -/
structure PackageRecord where
  fileName : String
  packageName : String
  md5 : String
deriving DecidableEq, Repr

/-- The local directory: an association list from file name to byte content.
Well-formed directories have pairwise distinct names (`List.Nodup` on
`fsNames`), which real directories guarantee. -/
abbrev FS : Type := List (String × List Nat)

/-- The names of the entries of a directory (`Path.iterdir` yields them). -/
def fsNames (fs : FS) : List String :=
  fs.map Prod.fst

/-- Look a file up by name (`local_file_path.exists()` + reading it). -/
def fsLookup (fs : FS) (n : String) : Option (List Nat) :=
  (List.find? (fun p => p.1 == n) fs).map Prod.snd

/-- Write `c` to file `n`, overwriting an existing file of that name and
creating the file otherwise (`open(local_path, 'wb')` + writes). -/
def fsWrite (fs : FS) (n : String) (c : List Nat) : FS :=
  if List.any fs (fun p => p.1 == n) then
    List.map (fun p : String × List Nat => if p.1 == n then (n, c) else p) fs
  else
    fs ++ [(n, c)]

/-- Remove the entry named `n` (the effect of a successful
`existing_file.unlink()`). -/
def fsErase (fs : FS) (n : String) : FS :=
  List.filter (fun p => ¬ p.1 = n) fs

/-- `Path.unlink()` with no `missing_ok`: removes the file if it exists and
raises `FileNotFoundError` otherwise. -/
def unlinkE (fs : FS) (n : String) : Except String FS :=
  if List.any fs (fun p => p.1 == n) then .ok (fsErase fs n)
  else .error "FileNotFoundError"

section Sync

variable (digest : List Nat → String) (serve : String → List Nat)

/-- One iteration of the first `for` loop of `JCDSSync.sync`
(jamfsync.py lines 73-83): if a local file named `pkg.fileName` exists,
compare its MD5 against the record's `md5` and re-download on mismatch;
otherwise download the file.  Returns the updated directory and whether a
download was issued. -/
def processPackage (fs : FS) (pkg : PackageRecord) : FS × Bool :=
  match fsLookup fs pkg.fileName with
  | some content =>
      if digest content ≠ pkg.md5 then
        (fsWrite fs pkg.fileName (serve pkg.fileName), true)
      else
        (fs, false)
  | none => (fsWrite fs pkg.fileName (serve pkg.fileName), true)

/-- The first `for` loop of `JCDSSync.sync` over the whole fetched list.
Returns the updated directory and the names downloaded, in order. -/
def downloadPhase (pkgs : List PackageRecord) (fs : FS) : FS × List String :=
  match pkgs with
  | [] => (fs, [])
  | pkg :: rest =>
      let st := processPackage digest serve fs pkg
      let tail := downloadPhase rest st.1
      (tail.1, (if st.2 then [pkg.fileName] else []) ++ tail.2)

end Sync

/-- `name.startswith('.')` for the one-character hidden marker: the name is
non-empty and its first character is `'.'`.  (`String.startsWith` itself is
definitionally opaque in this toolchain, so the check is written out on the
character list.) -/
def startsWithDot (n : String) : Bool :=
  match n.data with
  | [] => false
  | c :: _ => c == '.'

/-- The deletion condition of the second `for` loop of `JCDSSync.sync`
(line 85): the entry's name is not in `package_filenames` and does not start
with `'.'`. -/
def pruneSelected (syncSet : List String) (n : String) : Bool :=
  !(List.contains syncSet n) && !(startsWithDot n)

/-- The second `for` loop of `JCDSSync.sync` (lines 84-87): iterate over a
snapshot of the directory listing and unlink every selected entry.  The
directory `fs` at unlink time is threaded separately from the snapshot, so a
file that vanished between listing and unlink is representable; `sync` has no
`try`/`except`, so the `FileNotFoundError` raised by `unlink` propagates
(`Except.error`).  Returns the directory and the names deleted, in order. -/
def pruneLoop (syncSet : List String) (snapshot : List String) (fs : FS) :
    Except String (FS × List String) :=
  match snapshot with
  | [] => .ok (fs, [])
  | e :: rest =>
      if pruneSelected syncSet e then
        match unlinkE fs e with
        | .error msg => .error msg
        | .ok fs1 =>
            match pruneLoop syncSet rest fs1 with
            | .error msg => .error msg
            | .ok (fs2, dels) => .ok (fs2, e :: dels)
      else
        pruneLoop syncSet rest fs

/-- `JCDSSync.sync` (lines 68-87), in the race-free sequential case: fetch
the package list (`pkgs`), build `package_filenames`, run the download loop,
then the prune loop over the directory listing taken after the downloads.
Returns the final directory, the downloaded names and the deleted names, or
the propagated error. -/
def sync (digest : List Nat → String) (serve : String → List Nat)
    (pkgs : List PackageRecord) (fs : FS) :
    Except String (FS × List String × List String) :=
  match pruneLoop (pkgs.map PackageRecord.fileName)
      (fsNames (downloadPhase digest serve pkgs fs).1)
      (downloadPhase digest serve pkgs fs).1 with
  | .error msg => .error msg
  | .ok (fs2, dels) =>
      .ok (fs2, (downloadPhase digest serve pkgs fs).2, dels)

/-! ### Token state (`__init__`, `authenticate_jamf_api`, `check_token`) -/

/-- The shared mutable token state of a `JCDSSync` instance: `access_token`
(`None` until the first authentication) and `token_expiry`, an instant. -/
structure TokenState where
  access_token : Option String
  token_expiry : Nat
deriving DecidableEq, Repr

/-- `JCDSSync.authenticate_jamf_api` (lines 24-37), successful case: store
the token returned by the OAuth endpoint and set the expiry to
`now + expires_in`.  `fresh` and `expires_in` stand for the response fields
`access_token` and `expires_in`. -/
def authenticate_jamf_api (now : Nat) (fresh : String) (expires_in : Nat)
    (_st : TokenState) : TokenState :=
  { access_token := some fresh, token_expiry := now + expires_in }

/-- `JCDSSync.check_token` (lines 39-42): re-authenticate exactly when
`datetime.now(timezone.utc) >= self.token_expiry`.  Returns the new state and
whether `authenticate_jamf_api` was called. -/
def check_token (now : Nat) (fresh : String) (expires_in : Nat)
    (st : TokenState) : TokenState × Bool :=
  if st.token_expiry ≤ now then
    (authenticate_jamf_api now fresh expires_in st, true)
  else
    (st, false)

/-- A sequence of API-bound calls, each of which begins with `check_token`
(`fetch_packages` line 45, `download_file` line 53, `sync` line 70): fold
`check_token` over the call instants, counting how many of the calls invoked
`authenticate_jamf_api`.  The OAuth response `(fresh, expires_in)` is held
fixed across the run. -/
def runChecks (fresh : String) (expires_in : Nat) (st : TokenState)
    (ts : List Nat) : TokenState × Nat :=
  match ts with
  | [] => (st, 0)
  | t :: rest =>
      let step := check_token t fresh expires_in st
      let tail := runChecks fresh expires_in step.1 rest
      (tail.1, (if step.2 then 1 else 0) + tail.2)

/-! ### `fetch_packages` -/

/-- The query parameters of a Jamf Pro package list request. -/
structure ListRequest where
  page : Nat
  pageSize : Nat
  sort : String
deriving DecidableEq, Repr

/-- The documented pagination of `GET /api/v1/packages`: with the catalog
already in ascending id order, page `p` of size `s` holds the records from
index `p * s`, at most `s` of them. -/
def pageOf (catalog : List PackageRecord) (p s : Nat) : List PackageRecord :=
  (catalog.drop (p * s)).take s

/-- `JCDSSync.fetch_packages` (lines 44-50): one GET with the literal query
string `page=0&page-size=100&sort=id%3Aasc`, returning that single page's
`results`.  The result pairs the requests issued with the returned records. -/
def fetch_packages (catalog : List PackageRecord) :
    List ListRequest × List PackageRecord :=
  ([{ page := 0, pageSize := 100, sort := "id:asc" }], pageOf catalog 0 100)

/-! ### `download_file` -/

/-- The outcome of `GET {uri}` with `stream=True` followed by
`raise_for_status` and `iter_content`: either a non-2xx status detected
before the destination file is opened (`.error`), or the list of delivered
chunks together with `some msg` if the stream then failed mid-transfer
(after the file was opened) or `none` if it completed. -/
def StreamOutcome : Type := Except String (List (List Nat) × Option String)

/-- `JCDSSync.download_file` (lines 52-66): resolve the short-lived download
URI from `GET /api/v1/jcds/files/{file_name}` (`resolve`), then stream from
that URI to `local_path`.  `open(local_path, 'wb')` truncates the existing
file, each delivered non-empty chunk is appended, and an error raised
mid-stream propagates with the partial file left in place.  Returns the
directory after the call and the propagated outcome. -/
def download_file (resolve : String → Except String String)
    (stream : String → StreamOutcome) (fs : FS)
    (file_name : String) (local_path : String) : FS × Except String Unit :=
  match resolve file_name with
  | .error msg => (fs, .error msg)
  | .ok uri =>
      match stream uri with
      | .error msg => (fs, .error msg)
      | .ok (chunks, failure) =>
          let content := (chunks.filter (fun c => !c.isEmpty)).flatten
          let fs1 := fsWrite fs local_path content
          match failure with
          | some msg => (fs1, .error msg)
          | none => (fs1, .ok ())

/-! ### `md5` (chunked file hashing) -/

/-- The read loop `iter(lambda: f.read(4096), b"")` of `JCDSSync.md5` for a
chunk size of `n + 1`: successive takes of `n + 1` bytes until the file is
exhausted. -/
def readChunks (n : Nat) (content : List Nat) : List (List Nat) :=
  match content with
  | [] => []
  | b :: rest => ((b :: rest).take (n + 1)) :: readChunks n (rest.drop n)
termination_by content.length
decreasing_by
  simp only [List.length_drop, List.length_cons]
  omega

/-- `JCDSSync.md5` (lines 89-95): feed the 4096-byte chunks of the file to
the hasher via `hash_md5.update` and return `hash_md5.hexdigest()`.  The
hashlib object is modelled by the byte stream absorbed so far (`update`
appends to it) and `hexdigest` by `digest` of the absorbed stream. -/
def md5 (digest : List Nat → String) (content : List Nat) : String :=
  digest ((readChunks 4095 content).foldl (fun acc c => acc ++ c) [])

/-! ### Directory lemmas -/

theorem fsNames_cons (m : String) (c : List Nat) (rest : FS) :
    fsNames ((m, c) :: rest) = m :: fsNames rest := rfl

theorem fsLookup_cons (m : String) (c : List Nat) (rest : FS) (n : String) :
    fsLookup ((m, c) :: rest) n = if m = n then some c else fsLookup rest n := by
  by_cases h : m = n
  · simp [fsLookup, List.find?_cons, h]
  · simp [fsLookup, List.find?_cons, h]

theorem fsAny_iff_mem (fs : FS) (n : String) :
    List.any fs (fun p => p.1 == n) = true ↔ n ∈ fsNames fs := by
  simp [fsNames, List.any_eq_true, List.mem_map]

theorem fsLookup_isSome_iff (fs : FS) (n : String) :
    (fsLookup fs n).isSome = true ↔ n ∈ fsNames fs := by
  induction fs with
  | nil => simp [fsLookup, fsNames]
  | cons p rest ih =>
      rcases p with ⟨m, c⟩
      rw [fsLookup_cons, fsNames_cons]
      by_cases h : m = n
      · subst h
        simp
      · rw [if_neg h, ih, List.mem_cons]
        constructor
        · exact fun hm => Or.inr hm
        · rintro (rfl | hm)
          · exact absurd rfl h
          · exact hm

theorem fsLookup_eq_none_iff (fs : FS) (n : String) :
    fsLookup fs n = none ↔ n ∉ fsNames fs := by
  rw [← fsLookup_isSome_iff]
  cases fsLookup fs n <;> simp

theorem fsWrite_cons (m : String) (d : List Nat) (rest : FS) (n : String)
    (c : List Nat) :
    fsWrite ((m, d) :: rest) n c =
      if m = n then
        (n, c) ::
          List.map (fun p : String × List Nat => if p.1 == n then (n, c) else p)
            rest
      else (m, d) :: fsWrite rest n c := by
  by_cases h : m = n
  · simp [fsWrite, List.any_cons, h]
  · by_cases hr : List.any rest (fun p => p.1 == n) = true
    · simp [fsWrite, List.any_cons, h, hr]
    · simp only [Bool.not_eq_true] at hr
      simp [fsWrite, List.any_cons, h, hr]

theorem fsLookup_map_replace_other (l : FS) (n m : String) (c : List Nat)
    (h : m ≠ n) :
    fsLookup
        (List.map (fun p : String × List Nat => if p.1 == n then (n, c) else p)
          l) m = fsLookup l m := by
  induction l with
  | nil => rfl
  | cons q rest ih =>
      rcases q with ⟨k, d⟩
      simp only [List.map_cons]
      by_cases hk : k = n
      · subst hk
        have hhead :
            (if ((k, d).1 == k) = true then (k, c) else (k, d)) = (k, c) := by
          simp
        rw [hhead, fsLookup_cons, if_neg (fun he => h he.symm), ih,
          fsLookup_cons, if_neg (fun he => h he.symm)]
      · have hhead :
            (if ((k, d).1 == n) = true then (n, c) else (k, d)) = (k, d) := by
          simp [hk]
        rw [hhead, fsLookup_cons, fsLookup_cons, ih]

theorem fsNames_map_replace (l : FS) (n : String) (c : List Nat) :
    fsNames
        (List.map (fun p : String × List Nat => if p.1 == n then (n, c) else p)
          l) = fsNames l := by
  induction l with
  | nil => rfl
  | cons q rest ih =>
      rcases q with ⟨k, d⟩
      simp only [List.map_cons]
      by_cases hk : k = n
      · subst hk
        have hhead :
            (if ((k, d).1 == k) = true then (k, c) else (k, d)) = (k, c) := by
          simp
        rw [hhead, fsNames_cons, fsNames_cons, ih]
      · have hhead :
            (if ((k, d).1 == n) = true then (n, c) else (k, d)) = (k, d) := by
          simp [hk]
        rw [hhead, fsNames_cons, fsNames_cons, ih]

theorem fsLookup_write_self (fs : FS) (n : String) (c : List Nat) :
    fsLookup (fsWrite fs n c) n = some c := by
  induction fs with
  | nil =>
      have h0 : fsWrite [] n c = [(n, c)] := rfl
      rw [h0, fsLookup_cons, if_pos rfl]
  | cons p rest ih =>
      rcases p with ⟨m, d⟩
      rw [fsWrite_cons]
      by_cases h : m = n
      · rw [if_pos h, fsLookup_cons, if_pos rfl]
      · rw [if_neg h, fsLookup_cons, if_neg h, ih]

theorem fsLookup_write_other (fs : FS) (n m : String) (c : List Nat)
    (h : m ≠ n) : fsLookup (fsWrite fs n c) m = fsLookup fs m := by
  induction fs with
  | nil =>
      have h0 : fsWrite [] n c = [(n, c)] := rfl
      rw [h0, fsLookup_cons, if_neg (fun he => h he.symm)]
  | cons p rest ih =>
      rcases p with ⟨k, d⟩
      rw [fsWrite_cons]
      by_cases hk : k = n
      · subst hk
        rw [if_pos rfl, fsLookup_cons, if_neg (fun he => h he.symm),
          fsLookup_map_replace_other rest k m c h, fsLookup_cons,
          if_neg (fun he => h he.symm)]
      · rw [if_neg hk, fsLookup_cons, fsLookup_cons, ih]

theorem mem_fsNames_write (fs : FS) (n m : String) (c : List Nat) :
    m ∈ fsNames (fsWrite fs n c) ↔ m ∈ fsNames fs ∨ m = n := by
  induction fs with
  | nil =>
      have h0 : fsWrite [] n c = [(n, c)] := rfl
      rw [h0, fsNames_cons]
      simp [fsNames, eq_comm]
  | cons p rest ih =>
      rcases p with ⟨k, d⟩
      rw [fsWrite_cons]
      by_cases hk : k = n
      · subst hk
        rw [if_pos rfl, fsNames_cons, fsNames_cons, fsNames_map_replace]
        simp only [List.mem_cons]
        tauto
      · rw [if_neg hk, fsNames_cons, fsNames_cons, List.mem_cons,
          List.mem_cons, ih]
        tauto

theorem fsNames_write_nodup (fs : FS) (n : String) (c : List Nat)
    (h : (fsNames fs).Nodup) : (fsNames (fsWrite fs n c)).Nodup := by
  unfold fsWrite
  by_cases hany : List.any fs (fun p => p.1 == n) = true
  · rw [if_pos hany, fsNames_map_replace fs n c]
    exact h
  · rw [if_neg hany]
    have hn : n ∉ fsNames fs := fun hmem =>
      hany ((fsAny_iff_mem fs n).mpr hmem)
    have hfs : fsNames (fs ++ [(n, c)]) = fsNames fs ++ [n] := by
      simp [fsNames]
    rw [hfs, List.nodup_append]
    refine ⟨h, List.nodup_singleton n, ?_⟩
    intro a ha hb
    simp only [List.mem_singleton] at hb
    subst hb
    exact hn ha

theorem fsLookup_filter (fs : FS) (p : String × List Nat → Bool)
    (n : String) (h : ∀ c, p (n, c) = true) :
    fsLookup (List.filter p fs) n = fsLookup fs n := by
  induction fs with
  | nil => rfl
  | cons q rest ih =>
      rcases q with ⟨m, c⟩
      by_cases hm : m = n
      · subst hm
        rw [List.filter_cons, if_pos (h c), fsLookup_cons, fsLookup_cons,
          if_pos rfl, if_pos rfl]
      · rw [List.filter_cons]
        by_cases hp : p (m, c) = true
        · rw [if_pos hp, fsLookup_cons, fsLookup_cons, if_neg hm, if_neg hm, ih]
        · rw [if_neg hp, ih, fsLookup_cons, if_neg hm]

/-! ### Download-phase lemmas -/

theorem downloadPhase_cons (digest : List Nat → String)
    (serve : String → List Nat) (pkg : PackageRecord)
    (rest : List PackageRecord) (fs : FS) :
    downloadPhase digest serve (pkg :: rest) fs =
      ((downloadPhase digest serve rest
          (processPackage digest serve fs pkg).1).1,
        (if (processPackage digest serve fs pkg).2 then [pkg.fileName]
          else []) ++
        (downloadPhase digest serve rest
          (processPackage digest serve fs pkg).1).2) := rfl

theorem pruneSelected_iff (syncSet : List String) (n : String) :
    pruneSelected syncSet n = true ↔
      n ∉ syncSet ∧ startsWithDot n = false := by
  simp [pruneSelected]

theorem processPackage_fst_cases (digest : List Nat → String)
    (serve : String → List Nat) (fs : FS) (pkg : PackageRecord) :
    processPackage digest serve fs pkg =
        (fsWrite fs pkg.fileName (serve pkg.fileName), true) ∨
      (processPackage digest serve fs pkg = (fs, false) ∧
        ∃ c, fsLookup fs pkg.fileName = some c ∧ digest c = pkg.md5) := by
  unfold processPackage
  cases hl : fsLookup fs pkg.fileName with
  | none => exact Or.inl rfl
  | some content =>
      by_cases hd : digest content = pkg.md5
      · exact Or.inr ⟨by simp [hd], content, rfl, hd⟩
      · exact Or.inl (by simp [hd])

theorem mem_fsNames_processPackage (digest : List Nat → String)
    (serve : String → List Nat) (fs : FS) (pkg : PackageRecord) (m : String) :
    m ∈ fsNames (processPackage digest serve fs pkg).1 ↔
      m ∈ fsNames fs ∨ m = pkg.fileName := by
  rcases processPackage_fst_cases digest serve fs pkg with h | ⟨h, c, hc, _⟩
  · rw [h]
    exact mem_fsNames_write fs pkg.fileName m (serve pkg.fileName)
  · rw [h]
    have hmem : pkg.fileName ∈ fsNames fs :=
      (fsLookup_isSome_iff fs pkg.fileName).mp (by rw [hc]; rfl)
    constructor
    · exact fun hm => Or.inl hm
    · rintro (hm | rfl)
      · exact hm
      · exact hmem

theorem processPackage_nodup (digest : List Nat → String)
    (serve : String → List Nat) (fs : FS) (pkg : PackageRecord)
    (h : (fsNames fs).Nodup) :
    (fsNames (processPackage digest serve fs pkg).1).Nodup := by
  rcases processPackage_fst_cases digest serve fs pkg with he | ⟨he, _⟩
  · rw [he]
    exact fsNames_write_nodup fs pkg.fileName (serve pkg.fileName) h
  · rw [he]
    exact h

/-- The per-name invariant of the download loop: the file exists and its
digest agrees with the digest of what a download of it would store. -/
def GoodF (digest : List Nat → String) (serve : String → List Nat)
    (n : String) (fs : FS) : Prop :=
  ∃ c, fsLookup fs n = some c ∧ digest c = digest (serve n)

theorem processPackage_preserves_goodF (digest : List Nat → String)
    (serve : String → List Nat) (fs : FS) (pkg : PackageRecord) (n : String)
    (h : GoodF digest serve n fs) :
    GoodF digest serve n (processPackage digest serve fs pkg).1 := by
  rcases processPackage_fst_cases digest serve fs pkg with he | ⟨he, _⟩
  · rw [he]
    by_cases hn : n = pkg.fileName
    · subst hn
      exact ⟨serve pkg.fileName,
        fsLookup_write_self fs pkg.fileName (serve pkg.fileName), rfl⟩
    · rcases h with ⟨c, hc, hd⟩
      exact ⟨c, by rw [fsLookup_write_other fs pkg.fileName n (serve pkg.fileName) hn]; exact hc, hd⟩
  · rw [he]
    exact h

theorem downloadPhase_preserves_goodF (digest : List Nat → String)
    (serve : String → List Nat) (pkgs : List PackageRecord) (fs : FS)
    (n : String) (h : GoodF digest serve n fs) :
    GoodF digest serve n (downloadPhase digest serve pkgs fs).1 := by
  induction pkgs generalizing fs with
  | nil => exact h
  | cons pkg rest ih =>
      exact ih (processPackage digest serve fs pkg).1
        (processPackage_preserves_goodF digest serve fs pkg n h)

theorem processPackage_establishes_goodF (digest : List Nat → String)
    (serve : String → List Nat) (fs : FS) (pkg : PackageRecord)
    (h : digest (serve pkg.fileName) = pkg.md5) :
    GoodF digest serve pkg.fileName (processPackage digest serve fs pkg).1 := by
  rcases processPackage_fst_cases digest serve fs pkg with he | ⟨he, c, hc, hd⟩
  · rw [he]
    exact ⟨serve pkg.fileName, fsLookup_write_self fs pkg.fileName _, rfl⟩
  · rw [he]
    exact ⟨c, hc, by rw [hd, h]⟩

theorem downloadPhase_goodF (digest : List Nat → String)
    (serve : String → List Nat) (pkgs : List PackageRecord) (fs : FS)
    (hserve : ∀ r ∈ pkgs, digest (serve r.fileName) = r.md5) :
    ∀ r ∈ pkgs, ∃ c,
      fsLookup (downloadPhase digest serve pkgs fs).1 r.fileName = some c ∧
        digest c = r.md5 := by
  induction pkgs generalizing fs with
  | nil => intro r hr; cases hr
  | cons pkg rest ih =>
      intro r hr
      rcases List.mem_cons.mp hr with rfl | hr
      · have hest : GoodF digest serve r.fileName
            (processPackage digest serve fs r).1 :=
          processPackage_establishes_goodF digest serve fs r
            (hserve r (List.mem_cons_self r rest))
        have hkeep : GoodF digest serve r.fileName
            (downloadPhase digest serve rest
              (processPackage digest serve fs r).1).1 :=
          downloadPhase_preserves_goodF digest serve rest _ r.fileName hest
        rcases hkeep with ⟨c, hc, hd⟩
        refine ⟨c, ?_, ?_⟩
        · rw [downloadPhase_cons]
          exact hc
        · rw [hd]
          exact hserve r (List.mem_cons_self r rest)
      · have := ih (processPackage digest serve fs pkg).1
          (fun q hq => hserve q (List.mem_cons_of_mem pkg hq)) r hr
        rcases this with ⟨c, hc, hd⟩
        exact ⟨c, hc, hd⟩

theorem mem_fsNames_downloadPhase (digest : List Nat → String)
    (serve : String → List Nat) (pkgs : List PackageRecord) (fs : FS)
    (m : String) :
    m ∈ fsNames (downloadPhase digest serve pkgs fs).1 ↔
      m ∈ fsNames fs ∨ m ∈ pkgs.map PackageRecord.fileName := by
  induction pkgs generalizing fs with
  | nil => simp [downloadPhase]
  | cons pkg rest ih =>
      have hstep := mem_fsNames_processPackage digest serve fs pkg m
      calc m ∈ fsNames (downloadPhase digest serve (pkg :: rest) fs).1
          ↔ m ∈ fsNames (processPackage digest serve fs pkg).1 ∨
              m ∈ rest.map PackageRecord.fileName :=
            ih (processPackage digest serve fs pkg).1
        _ ↔ (m ∈ fsNames fs ∨ m = pkg.fileName) ∨
              m ∈ rest.map PackageRecord.fileName := by rw [hstep]
        _ ↔ m ∈ fsNames fs ∨
              m ∈ (pkg :: rest).map PackageRecord.fileName := by
            simp only [List.map_cons, List.mem_cons]
            tauto

theorem downloadPhase_nodup (digest : List Nat → String)
    (serve : String → List Nat) (pkgs : List PackageRecord) (fs : FS)
    (h : (fsNames fs).Nodup) :
    (fsNames (downloadPhase digest serve pkgs fs).1).Nodup := by
  induction pkgs generalizing fs with
  | nil => exact h
  | cons pkg rest ih =>
      exact ih (processPackage digest serve fs pkg).1
        (processPackage_nodup digest serve fs pkg h)

theorem downloadPhase_matching (digest : List Nat → String)
    (serve : String → List Nat) (pkgs : List PackageRecord) (fs : FS)
    (h : ∀ r ∈ pkgs, ∃ c, fsLookup fs r.fileName = some c ∧
      digest c = r.md5) :
    downloadPhase digest serve pkgs fs = (fs, []) := by
  induction pkgs with
  | nil => rfl
  | cons pkg rest ih =>
      have hpkg := h pkg (List.mem_cons_self pkg rest)
      rcases hpkg with ⟨c, hc, hd⟩
      have hstep : processPackage digest serve fs pkg = (fs, false) := by
        unfold processPackage
        rw [hc]
        simp [hd]
      rw [downloadPhase_cons, hstep]
      have htail := ih (fun r hr => h r (List.mem_cons_of_mem pkg hr))
      simp [htail]

/-! ### Prune-phase lemmas -/

theorem fsLookup_erase_other (fs : FS) (e n : String) (h : n ≠ e) :
    fsLookup (fsErase fs e) n = fsLookup fs n := by
  unfold fsErase
  exact fsLookup_filter fs _ n (fun c => by simp [h])

theorem mem_fsNames_erase (fs : FS) (e m : String) :
    m ∈ fsNames (fsErase fs e) ↔ m ∈ fsNames fs ∧ m ≠ e := by
  unfold fsErase fsNames
  simp only [List.mem_map, List.mem_filter, decide_eq_true_eq]
  constructor
  · rintro ⟨p, ⟨hp, hne⟩, rfl⟩
    exact ⟨⟨p, hp, rfl⟩, hne⟩
  · rintro ⟨⟨p, hp, rfl⟩, hne⟩
    exact ⟨p, ⟨hp, hne⟩, rfl⟩

theorem fsLookup_erase_self (fs : FS) (e : String) :
    fsLookup (fsErase fs e) e = none := by
  rw [fsLookup_eq_none_iff]
  intro hmem
  exact ((mem_fsNames_erase fs e e).mp hmem).2 rfl

theorem pruneLoop_cons (syncSet : List String) (e : String)
    (rest : List String) (fs : FS) :
    pruneLoop syncSet (e :: rest) fs =
      if pruneSelected syncSet e then
        match unlinkE fs e with
        | .error msg => .error msg
        | .ok fs1 =>
            match pruneLoop syncSet rest fs1 with
            | .error msg => .error msg
            | .ok (fs2, dels) => .ok (fs2, e :: dels)
      else pruneLoop syncSet rest fs := rfl

theorem unlinkE_ok (fs : FS) (e : String) (hmem : e ∈ fsNames fs) :
    unlinkE fs e = .ok (fsErase fs e) := by
  unfold unlinkE
  rw [if_pos ((fsAny_iff_mem fs e).mpr hmem)]

theorem unlinkE_missing (fs : FS) (e : String) (hmem : e ∉ fsNames fs) :
    unlinkE fs e = .error "FileNotFoundError" := by
  unfold unlinkE
  rw [if_neg (fun hc => hmem ((fsAny_iff_mem fs e).mp hc))]

theorem pruneLoop_cons_sel (syncSet : List String) (e : String)
    (rest : List String) (fs : FS) (hsel : pruneSelected syncSet e = true)
    (hmem : e ∈ fsNames fs) :
    pruneLoop syncSet (e :: rest) fs =
      match pruneLoop syncSet rest (fsErase fs e) with
      | .error msg => .error msg
      | .ok (fs2, dels) => .ok (fs2, e :: dels) := by
  rw [pruneLoop_cons, if_pos hsel, unlinkE_ok fs e hmem]

/-- When every snapshot entry is present (the race-free case), the prune
loop succeeds, deletes exactly the selected snapshot entries, and leaves
every other file untouched. -/
theorem pruneLoop_ok (syncSet : List String) (snapshot : List String) :
    ∀ fs : FS, (∀ e ∈ snapshot, e ∈ fsNames fs) → snapshot.Nodup →
      ∃ fs2, pruneLoop syncSet snapshot fs =
          .ok (fs2, snapshot.filter (pruneSelected syncSet)) ∧
        ∀ n, fsLookup fs2 n =
          if pruneSelected syncSet n = true ∧ n ∈ snapshot then none
          else fsLookup fs n := by
  induction snapshot with
  | nil =>
      intro fs _ _
      refine ⟨fs, rfl, ?_⟩
      intro n
      simp
  | cons e rest ih =>
      intro fs hsub hnd
      rcases List.nodup_cons.mp hnd with ⟨hniE, hndR⟩
      by_cases hsel : pruneSelected syncSet e = true
      · have hmem : e ∈ fsNames fs := hsub e (List.mem_cons_self e rest)
        have hsub1 : ∀ x ∈ rest, x ∈ fsNames (fsErase fs e) := by
          intro x hx
          rw [mem_fsNames_erase]
          exact ⟨hsub x (List.mem_cons_of_mem e hx),
            fun hxe => hniE (hxe ▸ hx)⟩
        rcases ih (fsErase fs e) hsub1 hndR with ⟨fs2, hrun, hchar⟩
        refine ⟨fs2, ?_, ?_⟩
        · rw [pruneLoop_cons_sel syncSet e rest fs hsel hmem, hrun,
            List.filter_cons_of_pos hsel]
        · intro n
          rw [hchar n]
          by_cases hne : n = e
          · subst hne
            rw [if_neg (fun hcon => hniE hcon.2), fsLookup_erase_self,
              if_pos ⟨hsel, List.mem_cons_self n rest⟩]
          · rw [fsLookup_erase_other fs e n hne]
            by_cases hc : pruneSelected syncSet n = true ∧ n ∈ rest
            · rw [if_pos hc, if_pos ⟨hc.1, List.mem_cons_of_mem e hc.2⟩]
            · have hc2 : ¬ (pruneSelected syncSet n = true ∧ n ∈ e :: rest) := by
                rintro ⟨h1, h2⟩
                rcases List.mem_cons.mp h2 with rfl | h3
                · exact hne rfl
                · exact hc ⟨h1, h3⟩
              rw [if_neg hc, if_neg hc2]
      · rcases ih fs (fun x hx => hsub x (List.mem_cons_of_mem e hx)) hndR
          with ⟨fs2, hrun, hchar⟩
        refine ⟨fs2, ?_, ?_⟩
        · rw [pruneLoop_cons, if_neg hsel, hrun,
            List.filter_cons_of_neg (by simpa using hsel)]
        · intro n
          rw [hchar n]
          by_cases hc : pruneSelected syncSet n = true ∧ n ∈ rest
          · rw [if_pos hc, if_pos ⟨hc.1, List.mem_cons_of_mem e hc.2⟩]
          · have hc2 : ¬ (pruneSelected syncSet n = true ∧ n ∈ e :: rest) := by
              rintro ⟨h1, h2⟩
              rcases List.mem_cons.mp h2 with rfl | h3
              · exact hsel h1
              · exact hc ⟨h1, h3⟩
            rw [if_neg hc, if_neg hc2]

/-- If some snapshot entry selected for deletion is already gone from the
directory, the prune loop propagates an error (there is no `try`/`except`
in `sync`). -/
theorem pruneLoop_error (syncSet : List String) (e : String)
    (hsel : pruneSelected syncSet e = true) :
    ∀ (snapshot : List String) (fs : FS), e ∈ snapshot → e ∉ fsNames fs →
      ∃ msg, pruneLoop syncSet snapshot fs = .error msg := by
  intro snapshot
  induction snapshot with
  | nil =>
      intro fs he _
      cases he
  | cons a rest ih =>
      intro fs he hmiss
      by_cases hsa : pruneSelected syncSet a = true
      · by_cases hmema : a ∈ fsNames fs
        · have hea : e ≠ a := fun h => hmiss (h ▸ hmema)
          have her : e ∈ rest := by
            rcases List.mem_cons.mp he with h | h
            · exact absurd h hea
            · exact h
          have hmiss1 : e ∉ fsNames (fsErase fs a) := fun hm =>
            hmiss ((mem_fsNames_erase fs a e).mp hm).1
          rcases ih (fsErase fs a) her hmiss1 with ⟨msg, hmsg⟩
          refine ⟨msg, ?_⟩
          rw [pruneLoop_cons_sel syncSet a rest fs hsa hmema, hmsg]
        · refine ⟨"FileNotFoundError", ?_⟩
          rw [pruneLoop_cons, if_pos hsa, unlinkE_missing fs a hmema]
      · have hea : e ≠ a := fun h => hsa (h ▸ hsel)
        have her : e ∈ rest := by
          rcases List.mem_cons.mp he with h | h
          · exact absurd h hea
          · exact h
        rcases ih fs her hmiss with ⟨msg, hmsg⟩
        refine ⟨msg, ?_⟩
        rw [pruneLoop_cons, if_neg hsa, hmsg]

/-- Race-free `sync` always completes: the prune loop runs over the
directory's own listing, so every unlink finds its file.  The result is
characterized pointwise. -/
theorem sync_ok (digest : List Nat → String) (serve : String → List Nat)
    (pkgs : List PackageRecord) (fs : FS) (hnd : (fsNames fs).Nodup) :
    ∃ fs2, sync digest serve pkgs fs =
        .ok (fs2, (downloadPhase digest serve pkgs fs).2,
          (fsNames (downloadPhase digest serve pkgs fs).1).filter
            (pruneSelected (pkgs.map PackageRecord.fileName))) ∧
      ∀ n, fsLookup fs2 n =
        if pruneSelected (pkgs.map PackageRecord.fileName) n = true ∧
            n ∈ fsNames (downloadPhase digest serve pkgs fs).1 then none
        else fsLookup (downloadPhase digest serve pkgs fs).1 n := by
  have hnd1 := downloadPhase_nodup digest serve pkgs fs hnd
  rcases pruneLoop_ok (pkgs.map PackageRecord.fileName)
      (fsNames (downloadPhase digest serve pkgs fs).1)
      (downloadPhase digest serve pkgs fs).1 (fun e he => he) hnd1
    with ⟨fs2, hrun, hchar⟩
  refine ⟨fs2, ?_, hchar⟩
  unfold sync
  rw [hrun]

/-! ### Further helpers -/

theorem pruneSelected_eq_false_of_mem (syncSet : List String) (n : String)
    (h : n ∈ syncSet) : pruneSelected syncSet n = false := by
  simp [pruneSelected, h]

theorem pruneSelected_eq_false_of_hidden (syncSet : List String) (n : String)
    (h : startsWithDot n = true) : pruneSelected syncSet n = false := by
  simp [pruneSelected, h]

theorem pruneSelected_eq_true_iff (syncSet : List String) (n : String) :
    pruneSelected syncSet n = true ↔
      n ∉ syncSet ∧ startsWithDot n = false := by
  simp [pruneSelected]

theorem fsLookup_downloadPhase_other (digest : List Nat → String)
    (serve : String → List Nat) (pkgs : List PackageRecord) (n : String)
    (h : n ∉ pkgs.map PackageRecord.fileName) :
    ∀ fs : FS,
      fsLookup (downloadPhase digest serve pkgs fs).1 n = fsLookup fs n := by
  induction pkgs with
  | nil =>
      intro fs
      rfl
  | cons pkg rest ih =>
      intro fs
      have hn : n ∉ rest.map PackageRecord.fileName := fun hm =>
        h (by simp [hm])
      have hne : n ≠ pkg.fileName := fun he => h (by simp [he])
      show fsLookup (downloadPhase digest serve rest
        (processPackage digest serve fs pkg).1).1 n = fsLookup fs n
      rw [ih hn (processPackage digest serve fs pkg).1]
      rcases processPackage_fst_cases digest serve fs pkg with he | ⟨he, _⟩
      · rw [he]
        exact fsLookup_write_other fs pkg.fileName n (serve pkg.fileName) hne
      · rw [he]

/-! ### Token lemmas -/

theorem runChecks_cons (fresh : String) (ei t : Nat) (rest : List Nat)
    (st : TokenState) :
    runChecks fresh ei st (t :: rest) =
      ((runChecks fresh ei (check_token t fresh ei st).1 rest).1,
        (if (check_token t fresh ei st).2 then 1 else 0) +
          (runChecks fresh ei (check_token t fresh ei st).1 rest).2) := rfl

theorem check_token_fresh (now : Nat) (fresh : String) (ei : Nat)
    (st : TokenState) (h : now < st.token_expiry) :
    check_token now fresh ei st = (st, false) := by
  unfold check_token
  rw [if_neg (by omega)]

theorem check_token_expired (now : Nat) (fresh : String) (ei : Nat)
    (st : TokenState) (h : st.token_expiry ≤ now) :
    check_token now fresh ei st =
      ({ access_token := some fresh, token_expiry := now + ei }, true) := by
  unfold check_token
  rw [if_pos h]
  rfl

theorem runChecks_no_expiry (fresh : String) (ei : Nat) (st : TokenState) :
    ∀ ts : List Nat, (∀ u ∈ ts, u < st.token_expiry) →
      runChecks fresh ei st ts = (st, 0) := by
  intro ts
  induction ts with
  | nil =>
      intro _
      rfl
  | cons t rest ih =>
      intro h
      rw [runChecks_cons,
        check_token_fresh t fresh ei st (h t (List.mem_cons_self t rest)),
        ih (fun u hu => h u (List.mem_cons_of_mem t hu))]
      simp

theorem runChecks_append (fresh : String) (ei : Nat) :
    ∀ (l1 l2 : List Nat) (st : TokenState),
      runChecks fresh ei st (l1 ++ l2) =
        ((runChecks fresh ei (runChecks fresh ei st l1).1 l2).1,
          (runChecks fresh ei st l1).2 +
            (runChecks fresh ei (runChecks fresh ei st l1).1 l2).2) := by
  intro l1
  induction l1 with
  | nil =>
      intro l2 st
      simp [runChecks]
  | cons t rest ih =>
      intro l2 st
      rw [List.cons_append, runChecks_cons, ih l2, runChecks_cons]
      simp [Nat.add_assoc]

/-! ### Chunked-read lemmas -/

theorem readChunks_flatten (n : Nat) (content : List Nat) :
    (readChunks n content).flatten = content := by
  generalize hl : content.length = len
  induction len using Nat.strong_induction_on generalizing content with
  | _ len ih =>
      cases content with
      | nil => simp [readChunks]
      | cons b rest =>
          have hlt : (rest.drop n).length < len := by
            subst hl
            simp only [List.length_drop, List.length_cons]
            omega
          rw [readChunks, List.flatten_cons,
            ih (rest.drop n).length hlt (rest.drop n) rfl,
            List.take_succ_cons, List.cons_append, List.take_append_drop]

theorem foldl_append_eq_flatten (l : List (List Nat)) (acc : List Nat) :
    l.foldl (fun a c => a ++ c) acc = acc ++ l.flatten := by
  induction l generalizing acc with
  | nil => simp
  | cons c rest ih => simp [ih, List.append_assoc]

theorem pruneLoop_noop (syncSet : List String) :
    ∀ (snapshot : List String) (fs : FS),
      (∀ e ∈ snapshot, pruneSelected syncSet e = false) →
      pruneLoop syncSet snapshot fs = .ok (fs, []) := by
  intro snapshot
  induction snapshot with
  | nil =>
      intro fs _
      rfl
  | cons e rest ih =>
      intro fs h
      have hne : ¬ (pruneSelected syncSet e = true) := by
        rw [h e (List.mem_cons_self e rest)]
        exact Bool.false_ne_true
      rw [pruneLoop_cons, if_neg hne,
        ih fs (fun x hx => h x (List.mem_cons_of_mem e hx))]

/-! ## The claims -/

/-- C1 (amended): on a well-formed directory, when the remote listing is
self-consistent (the bytes a download of `r.fileName` stores hash to the
listed `r.md5`) and no fetched `fileName` is hidden, `sync` completes
without error, and afterwards the non-hidden local file names are exactly
the remote `fileName`s and each remote file's local content hash equals its
listed `md5`. -/
theorem sync_mirror_invariant (digest : List Nat → String)
    (serve : String → List Nat) (pkgs : List PackageRecord) (fs : FS)
    (hnd : (fsNames fs).Nodup)
    (hserve : ∀ r ∈ pkgs, digest (serve r.fileName) = r.md5)
    (hvis : ∀ r ∈ pkgs, startsWithDot r.fileName = false) :
    ∃ fs2 dls dels, sync digest serve pkgs fs = .ok (fs2, dls, dels) ∧
      (∀ n, (n ∈ fsNames fs2 ∧ startsWithDot n = false) ↔
        n ∈ pkgs.map PackageRecord.fileName) ∧
      ∀ r ∈ pkgs, ∃ c, fsLookup fs2 r.fileName = some c ∧ digest c = r.md5 := by
  rcases sync_ok digest serve pkgs fs hnd with ⟨fs2, hs, hchar⟩
  refine ⟨fs2, _, _, hs, ?_, ?_⟩
  · intro n
    constructor
    · rintro ⟨hmem2, hnh⟩
      by_contra habs
      have hsel : pruneSelected (pkgs.map PackageRecord.fileName) n = true :=
        (pruneSelected_eq_true_iff _ n).mpr ⟨habs, hnh⟩
      have hsome : (fsLookup fs2 n).isSome = true :=
        (fsLookup_isSome_iff fs2 n).mpr hmem2
      rw [hchar n] at hsome
      by_cases hmem1 : n ∈ fsNames (downloadPhase digest serve pkgs fs).1
      · rw [if_pos ⟨hsel, hmem1⟩] at hsome
        simp at hsome
      · rw [if_neg (fun hc => hmem1 hc.2)] at hsome
        exact hmem1 ((fsLookup_isSome_iff _ n).mp hsome)
    · intro hmem
      have hsel : pruneSelected (pkgs.map PackageRecord.fileName) n = false :=
        pruneSelected_eq_false_of_mem _ n hmem
      have hmem1 : n ∈ fsNames (downloadPhase digest serve pkgs fs).1 :=
        (mem_fsNames_downloadPhase digest serve pkgs fs n).mpr (Or.inr hmem)
      have hlook : fsLookup fs2 n =
          fsLookup (downloadPhase digest serve pkgs fs).1 n := by
        rw [hchar n, if_neg (fun hc => by rw [hsel] at hc; cases hc.1)]
      have hsome : (fsLookup fs2 n).isSome = true := by
        rw [hlook]
        exact (fsLookup_isSome_iff _ n).mpr hmem1
      refine ⟨(fsLookup_isSome_iff fs2 n).mp hsome, ?_⟩
      rcases List.mem_map.mp hmem with ⟨r, hr, rfl⟩
      exact hvis r hr
  · intro r hr
    have hmemset : r.fileName ∈ pkgs.map PackageRecord.fileName :=
      List.mem_map.mpr ⟨r, hr, rfl⟩
    have hsel : pruneSelected (pkgs.map PackageRecord.fileName) r.fileName
        = false := pruneSelected_eq_false_of_mem _ _ hmemset
    rcases downloadPhase_goodF digest serve pkgs fs hserve r hr with ⟨c, hc, hd⟩
    refine ⟨c, ?_, hd⟩
    rw [hchar r.fileName,
      if_neg (fun hcon => by rw [hsel] at hcon; cases hcon.1), hc]

/-- C1 witness: a one-record list on an empty directory. -/
theorem sync_mirror_invariant_witness :
    ∃ fs2 dls dels,
      sync (fun _ => "h") (fun _ => [])
          [(⟨"a.pkg", "A", "h"⟩ : PackageRecord)] [] =
        .ok (fs2, dls, dels) ∧
      (∀ n, (n ∈ fsNames fs2 ∧ startsWithDot n = false) ↔
        n ∈ [(⟨"a.pkg", "A", "h"⟩ : PackageRecord)].map
          PackageRecord.fileName) ∧
      ∀ r ∈ [(⟨"a.pkg", "A", "h"⟩ : PackageRecord)], ∃ c,
        fsLookup fs2 r.fileName = some c ∧ (fun _ => "h") c = r.md5 :=
  sync_mirror_invariant (fun _ => "h") (fun _ => [])
    [(⟨"a.pkg", "A", "h"⟩ : PackageRecord)] []
    List.nodup_nil (by decide) (by decide)

/-- C1 counterexample to the claim as stated: with a remote list whose only
`fileName` is hidden, `sync` completes without error, yet the set of
non-hidden local names (empty) differs from the remote `fileName` set
({".hidden"}): the downloaded hidden file is excluded from the former. -/
theorem sync_mirror_invariant_counterexample :
    sync (fun _ => "h") (fun _ => [])
        [(⟨".hidden", "A", "h"⟩ : PackageRecord)] [] =
      .ok ([(".hidden", [])], [".hidden"], []) ∧
    ".hidden" ∈ [(⟨".hidden", "A", "h"⟩ : PackageRecord)].map
      PackageRecord.fileName ∧
    ¬ (".hidden" ∈ fsNames [((".hidden" : String), ([] : List Nat))] ∧
      startsWithDot ".hidden" = false) := by
  refine ⟨rfl, by decide, ?_⟩
  intro h
  exact absurd h.2 (by decide)

/-- C2 (amended): `sync` has no `try`/`except`: if a file selected for
deletion vanished between the directory listing and its `unlink`, the
`FileNotFoundError` propagates out of the prune loop and aborts the cycle,
the same as every other failure; no error class is caught. -/
theorem vanished_file_aborts (syncSet snapshot : List String) (fs : FS)
    (e : String) (he : e ∈ snapshot)
    (hsel : pruneSelected syncSet e = true) (hmiss : e ∉ fsNames fs) :
    ∃ msg, pruneLoop syncSet snapshot fs = .error msg :=
  pruneLoop_error syncSet e hsel snapshot fs he hmiss

/-- C2 witness: a single selected entry that is already gone. -/
theorem vanished_file_aborts_witness :
    ∃ msg, pruneLoop [] ["gone.pkg"] [] = .error msg :=
  vanished_file_aborts [] ["gone.pkg"] [] "gone.pkg" (by decide) (by decide)
    (by decide)

/-- C2 counterexample to the claim as stated: the claim says a vanished
file is caught and logged and the loop continues; instead the prune loop
returns the propagated `FileNotFoundError` rather than an `.ok` result. -/
theorem vanished_file_counterexample :
    pruneLoop [] ["stale.pkg"] [] = .error "FileNotFoundError" := rfl

/-- C3: on a directory that already matches the remote list (every remote
file present with equal hash, every non-hidden local name remote), `sync`
issues zero downloads and zero deletions and leaves the directory
unchanged. -/
theorem sync_matched_noop (digest : List Nat → String)
    (serve : String → List Nat) (pkgs : List PackageRecord) (fs : FS)
    (hhash : ∀ r ∈ pkgs, ∃ c,
      fsLookup fs r.fileName = some c ∧ digest c = r.md5)
    (hcover : ∀ n ∈ fsNames fs, startsWithDot n = false →
      n ∈ pkgs.map PackageRecord.fileName) :
    sync digest serve pkgs fs = .ok (fs, [], []) := by
  have hdl := downloadPhase_matching digest serve pkgs fs hhash
  have h1 : (downloadPhase digest serve pkgs fs).1 = fs := by rw [hdl]
  have h2 : (downloadPhase digest serve pkgs fs).2 = [] := by rw [hdl]
  have hsel : ∀ e ∈ fsNames fs,
      pruneSelected (pkgs.map PackageRecord.fileName) e = false := by
    intro e he
    by_cases hh : startsWithDot e = true
    · exact pruneSelected_eq_false_of_hidden _ e hh
    · exact pruneSelected_eq_false_of_mem _ e
        (hcover e he (by simpa using hh))
  have hpl := pruneLoop_noop (pkgs.map PackageRecord.fileName)
    (fsNames fs) fs hsel
  unfold sync
  rw [h1, h2, hpl]

/-- C3 witness: a matching one-file directory. -/
theorem sync_matched_noop_witness :
    sync (fun _ => "h") (fun _ => [])
        [(⟨"a.pkg", "A", "h"⟩ : PackageRecord)] [("a.pkg", [])] =
      .ok ([("a.pkg", [])], [], []) :=
  sync_matched_noop (fun _ => "h") (fun _ => [])
    [(⟨"a.pkg", "A", "h"⟩ : PackageRecord)] [("a.pkg", [])]
    (by
      intro r hr
      rw [List.mem_singleton] at hr
      subst hr
      exact ⟨[], rfl, rfl⟩)
    (by decide)

/-- C4: per-record behavior of the download loop of `sync`: a record absent
locally is downloaded to its `fileName`; a present record with differing
hash is re-downloaded and overwritten; a present record with equal hash
issues no download and changes nothing. -/
theorem record_download_policy (digest : List Nat → String)
    (serve : String → List Nat) (fs : FS) (pkg : PackageRecord) :
    (fsLookup fs pkg.fileName = none →
      processPackage digest serve fs pkg =
        (fsWrite fs pkg.fileName (serve pkg.fileName), true)) ∧
    ∀ c, fsLookup fs pkg.fileName = some c →
      (digest c ≠ pkg.md5 →
        processPackage digest serve fs pkg =
          (fsWrite fs pkg.fileName (serve pkg.fileName), true)) ∧
      (digest c = pkg.md5 →
        processPackage digest serve fs pkg = (fs, false)) := by
  refine ⟨?_, ?_⟩
  · intro h
    unfold processPackage
    rw [h]
  · intro c hc
    refine ⟨?_, ?_⟩
    · intro hne
      unfold processPackage
      rw [hc]
      simp [hne]
    · intro he
      unfold processPackage
      rw [hc]
      simp [he]

/-- C4 witness: an absent record is downloaded. -/
theorem record_download_policy_witness :
    processPackage (fun _ => "h") (fun _ => [7]) []
        (⟨"a.pkg", "A", "h"⟩ : PackageRecord) =
      (fsWrite [] "a.pkg" [7], true) :=
  (record_download_policy (fun _ => "h") (fun _ => [7]) []
    (⟨"a.pkg", "A", "h"⟩ : PackageRecord)).1 rfl

/-- C5: a local entry absent from the remote `fileName` set is deleted by
`sync` when non-hidden, and left untouched by pruning (and by the download
loop) when hidden. -/
theorem stale_entry_pruned (digest : List Nat → String)
    (serve : String → List Nat) (pkgs : List PackageRecord) (fs : FS)
    (hnd : (fsNames fs).Nodup) (n : String) (hmem : n ∈ fsNames fs)
    (habs : n ∉ pkgs.map PackageRecord.fileName) :
    ∃ fs2 dls dels, sync digest serve pkgs fs = .ok (fs2, dls, dels) ∧
      (startsWithDot n = false → n ∉ fsNames fs2 ∧ n ∈ dels) ∧
      (startsWithDot n = true → fsLookup fs2 n = fsLookup fs n) := by
  rcases sync_ok digest serve pkgs fs hnd with ⟨fs2, hs, hchar⟩
  have hmem1 : n ∈ fsNames (downloadPhase digest serve pkgs fs).1 :=
    (mem_fsNames_downloadPhase digest serve pkgs fs n).mpr (Or.inl hmem)
  refine ⟨fs2, _, _, hs, ?_, ?_⟩
  · intro hnh
    have hsel : pruneSelected (pkgs.map PackageRecord.fileName) n = true :=
      (pruneSelected_eq_true_iff _ n).mpr ⟨habs, hnh⟩
    constructor
    · rw [← fsLookup_eq_none_iff, hchar n, if_pos ⟨hsel, hmem1⟩]
    · exact List.mem_filter.mpr ⟨hmem1, hsel⟩
  · intro hh
    have hsel : pruneSelected (pkgs.map PackageRecord.fileName) n = false :=
      pruneSelected_eq_false_of_hidden _ n hh
    rw [hchar n, if_neg (fun hc => by rw [hsel] at hc; cases hc.1),
      fsLookup_downloadPhase_other digest serve pkgs n habs fs]

/-- C5 witness: an empty remote list over a one-file directory. -/
theorem stale_entry_pruned_witness :
    ∃ fs2 dls dels,
      sync (fun _ => "h") (fun _ => []) []
          [(("old.pkg" : String), ([] : List Nat))] = .ok (fs2, dls, dels) ∧
      (startsWithDot "old.pkg" = false →
        "old.pkg" ∉ fsNames fs2 ∧ "old.pkg" ∈ dels) ∧
      (startsWithDot "old.pkg" = true →
        fsLookup fs2 "old.pkg" =
          fsLookup [(("old.pkg" : String), ([] : List Nat))] "old.pkg") :=
  stale_entry_pruned (fun _ => "h") (fun _ => []) []
    [(("old.pkg" : String), ([] : List Nat))]
    (by simp [fsNames]) "old.pkg" (by decide) (by decide)

/-- C6: a token whose expiry is `T` is reused without authentication by
every `check_token` before `T`; the first check at an instant `t ≥ T`
authenticates, storing expiry `t + expires_in`, and no later check before
that new expiry authenticates again: exactly one authentication in the
run. -/
theorem token_refreshed_once (T : Nat) (tok : Option String) (fresh : String)
    (ei : Nat) (ts1 : List Nat) (t : Nat) (ts2 : List Nat)
    (h1 : ∀ u ∈ ts1, u < T) (h2 : T ≤ t) (h3 : ∀ u ∈ ts2, u < t + ei) :
    runChecks fresh ei ⟨tok, T⟩ ts1 = (⟨tok, T⟩, 0) ∧
    runChecks fresh ei ⟨tok, T⟩ (ts1 ++ t :: ts2) =
      (⟨some fresh, t + ei⟩, 1) := by
  have hfirst : runChecks fresh ei ⟨tok, T⟩ ts1 = (⟨tok, T⟩, 0) :=
    runChecks_no_expiry fresh ei ⟨tok, T⟩ ts1 h1
  refine ⟨hfirst, ?_⟩
  rw [runChecks_append fresh ei ts1 (t :: ts2) ⟨tok, T⟩]
  simp only [hfirst]
  rw [runChecks_cons]
  simp only [check_token_expired t fresh ei ⟨tok, T⟩ h2]
  rw [runChecks_no_expiry fresh ei ⟨some fresh, t + ei⟩ ts2 h3]
  simp

/-- C6 witness: two calls before expiry 5, a refresh at 7, two calls before
the new expiry 17. -/
theorem token_refreshed_once_witness :
    runChecks "tk" 10 ⟨none, 5⟩ [1, 4] = (⟨none, 5⟩, 0) ∧
    runChecks "tk" 10 ⟨none, 5⟩ ([1, 4] ++ 7 :: [8, 16]) =
      (⟨some "tk", 7 + 10⟩, 1) :=
  token_refreshed_once 5 none "tk" 10 [1, 4] 7 [8, 16]
    (by decide) (by decide) (by decide)

/-- C7: `fetch_packages` issues exactly one list request, for page 0 with
page size 100 sorted by ascending id, and returns only that page: catalogs
longer than 100 records are silently truncated. -/
theorem fetch_packages_single_page (catalog : List PackageRecord) :
    (fetch_packages catalog).1 = [(⟨0, 100, "id:asc"⟩ : ListRequest)] ∧
    (fetch_packages catalog).2 = catalog.take 100 ∧
    (100 < catalog.length →
      (fetch_packages catalog).2.length < catalog.length) := by
  refine ⟨rfl, ?_, ?_⟩
  · show pageOf catalog 0 100 = catalog.take 100
    unfold pageOf
    rw [Nat.zero_mul, List.drop_zero]
  · intro h
    show (pageOf catalog 0 100).length < catalog.length
    unfold pageOf
    rw [Nat.zero_mul, List.drop_zero, List.length_take]
    omega

/-- C7 witness: a 101-record catalog loses a record. -/
theorem fetch_packages_single_page_witness :
    100 < (List.replicate 101 (⟨"a", "p", "m"⟩ : PackageRecord)).length ∧
    (fetch_packages
        (List.replicate 101 (⟨"a", "p", "m"⟩ : PackageRecord))).2.length <
      (List.replicate 101 (⟨"a", "p", "m"⟩ : PackageRecord)).length :=
  ⟨by simp,
    (fetch_packages_single_page
      (List.replicate 101 (⟨"a", "p", "m"⟩ : PackageRecord))).2.2 (by simp)⟩

/-- C8: `download_file` resolves the URI first (a resolution failure leaves
the directory untouched), then streams to the destination, overwriting it;
a mid-stream failure propagates with the partial file left at the
destination (the pre-existing content is not restored). -/
theorem download_file_stream_behavior (resolve : String → Except String String)
    (stream : String → StreamOutcome) (fs : FS) (fn path : String) :
    (∀ msg, resolve fn = .error msg →
      download_file resolve stream fs fn path = (fs, .error msg)) ∧
    (∀ uri chunks, resolve fn = .ok uri → stream uri = .ok (chunks, none) →
      download_file resolve stream fs fn path =
        (fsWrite fs path ((chunks.filter (fun c => !c.isEmpty)).flatten),
          .ok ())) ∧
    (∀ uri chunks msg, resolve fn = .ok uri →
      stream uri = .ok (chunks, some msg) →
      download_file resolve stream fs fn path =
        (fsWrite fs path ((chunks.filter (fun c => !c.isEmpty)).flatten),
          .error msg)) := by
  refine ⟨?_, ?_, ?_⟩
  · intro msg h
    unfold download_file
    rw [h]
  · intro uri chunks h1 h2
    unfold download_file
    simp only [h1, h2]
  · intro uri chunks msg h1 h2
    unfold download_file
    simp only [h1, h2]

/-- C8 witness: a failure after two delivered chunks leaves the partial
file, replacing the previous content. -/
theorem download_file_stream_behavior_witness :
    download_file (fun _ => .ok "u")
        (fun _ => .ok ([[1], [], [2]], some "mid-stream"))
        [("f.pkg", [9])] "f.pkg" "f.pkg" =
      (fsWrite [("f.pkg", [9])] "f.pkg" [1, 2], .error "mid-stream") := by
  have h := (download_file_stream_behavior (fun _ => .ok "u")
      (fun _ => .ok ([[1], [], [2]], some "mid-stream"))
      [("f.pkg", [9])] "f.pkg" "f.pkg").2.2 "u" [[1], [], [2]] "mid-stream"
    rfl rfl
  rw [h]
  rfl

/-- C9: the chunked hash routine (4096-byte reads fed to the hasher) yields
the digest of the whole file content, independently of the chunk size. -/
theorem md5_chunking_independent (digest : List Nat → String)
    (content : List Nat) :
    md5 digest content = digest content ∧
    ∀ n, digest ((readChunks n content).foldl (fun acc c => acc ++ c) []) =
      digest content := by
  have hgen : ∀ n,
      ((readChunks n content).foldl (fun acc c => acc ++ c) []) = content := by
    intro n
    rw [foldl_append_eq_flatten, List.nil_append, readChunks_flatten]
  exact ⟨by unfold md5; rw [hgen 4095], fun n => by rw [hgen n]⟩

/-- C10: the hidden-name exemption lives only in the prune phase: a record
whose `fileName` starts with `'.'` is hashed, downloaded and overwritten by
exactly the general per-record policy, and a hidden name is never selected
for deletion. -/
theorem hidden_records_still_synced (digest : List Nat → String)
    (serve : String → List Nat) (fs : FS) (pkg : PackageRecord)
    (hh : startsWithDot pkg.fileName = true) :
    ((processPackage digest serve fs pkg).2 = true ↔
      fsLookup fs pkg.fileName = none ∨
        ∃ c, fsLookup fs pkg.fileName = some c ∧ digest c ≠ pkg.md5) ∧
    (fsLookup fs pkg.fileName = none →
      processPackage digest serve fs pkg =
        (fsWrite fs pkg.fileName (serve pkg.fileName), true)) ∧
    (∀ c, fsLookup fs pkg.fileName = some c → digest c ≠ pkg.md5 →
      processPackage digest serve fs pkg =
        (fsWrite fs pkg.fileName (serve pkg.fileName), true)) ∧
    ∀ syncSet : List String, pruneSelected syncSet pkg.fileName = false := by
  refine ⟨?_, ?_, ?_, ?_⟩
  · unfold processPackage
    cases hl : fsLookup fs pkg.fileName with
    | none => simp
    | some c =>
        by_cases hd : digest c = pkg.md5
        · simp [hd]
        · simp [hd]
  · intro h
    unfold processPackage
    rw [h]
  · intro c hc hne
    unfold processPackage
    rw [hc]
    simp [hne]
  · intro syncSet
    exact pruneSelected_eq_false_of_hidden syncSet pkg.fileName hh

/-- C10 witness: an absent hidden record is downloaded like any other. -/
theorem hidden_records_still_synced_witness :
    processPackage (fun _ => "h") (fun _ => [3]) []
        (⟨".keep", "K", "h"⟩ : PackageRecord) =
      (fsWrite [] ".keep" [3], true) :=
  ((hidden_records_still_synced (fun _ => "h") (fun _ => [3]) []
    (⟨".keep", "K", "h"⟩ : PackageRecord) (by decide)).2.1) rfl

end JCDSSync
